import Mathlib

/-!
Verification development for the dependency-graph visualizer
(`dep_viz.py`).  The Python program is shallowly embedded: the
network (crates.io) is an oracle (`Env`), manifests are modelled as
parsed TOML tables, the breadth-first builder `_fetch_all_dependencies`
becomes an explicit step function on a traversal state, and the two
graph analyses (`show_dependency_order`, `show_reverse_dependencies`)
become pure functions over the finished adjacency list.

Modelling conventions:
* Python dicts are association lists keyed by their canonical string,
  preserving insertion order; membership tests compare keys with `==`
  exactly as `pkg_id in self.graph` compares strings.
* Python `set` accumulation (`deps = set(); deps.add(name)`) is modelled
  as first-insertion-order duplicate-free list accumulation.  Every
  property proved below is insensitive to the iteration order of the
  set except where a theorem evaluates the model on its own order.
* `str.lower()` is modelled ASCII-wise with `Char.toLower`.
* Exceptions are `Option`: `none` marks a raised exception at the
  boundary where the source catches it.
* `BuildState.fetchLog` and `BuildState.enqLog` are ghost
  instrumentation: `fetchLog` records every `_download_crate` attempt
  made by the traversal loop, `enqLog` records every `queue.append`
  (including the initial one).  They receive exactly one append at the
  source line they mirror and influence nothing else.
-/

namespace DepViz

/-- Canonical package id, `f"{name}@{version}"` in the source. -/
def mkId (name version : String) : String := name ++ "@" ++ version

/-- ASCII model of Python `str.lower()` (character-list based so that
the kernel can evaluate it). -/
def pyLower (s : String) : String := ⟨s.data.map Char.toLower⟩

/-- Does `needle` occur at the head of `l`? (helper for substring tests). -/
def leadMatch : List Char → List Char → Bool
  | [], _ => true
  | _ :: _, [] => false
  | a :: as, b :: bs => a == b && leadMatch as bs

/-- Does `needle` occur anywhere in the second list? -/
def subOccurs (needle : List Char) : List Char → Bool
  | [] => leadMatch needle []
  | c :: rest => leadMatch needle (c :: rest) || subOccurs needle rest

/-- Python `needle in haystack` on strings (substring containment). -/
def strContains (haystack needle : String) : Bool :=
  subOccurs needle.toList haystack.toList

/-- Structured values as produced by `toml.loads` / `response.json()`:
strings, booleans, integers and nested tables (dicts). -/
inductive TomlVal where
  | str (s : String)
  | boolVal (b : Bool)
  | intVal (n : Int)
  | table (entries : List (String × TomlVal))

/-- Python truthiness of a `TomlVal` (what `if info.get("optional"):` tests). -/
def pyTruthy : TomlVal → Bool
  | .str s => s != ""
  | .boolVal b => b
  | .intVal n => n != 0
  | .table entries => !entries.isEmpty

/-- `isinstance(info, dict) and info.get("optional")`: the dependency
entry is skipped exactly when its value is a table whose `optional`
key is present with a truthy value. -/
def skipOptional : TomlVal → Bool
  | .table entries =>
    match entries.lookup "optional" with
    | some v => pyTruthy v
    | none => false
  | _ => false

/-- `deps.add(name)` on the model of a Python set: append if absent. -/
def addName (acc : List String) (n : String) : List String :=
  if acc.contains n then acc else acc ++ [n]

/-- One `for name, info in section.items()` loop of `_parse_dependencies`. -/
def addTableDeps (acc : List String) (entries : List (String × TomlVal)) : List String :=
  entries.foldl (fun a p => if skipOptional p.2 then a else addName a p.1) acc

/-- `if key in data: for name, info in data[key].items(): ...` — a present
non-table section raises (`.items()` on a non-dict), modelled as `none`. -/
def depSection (data : List (String × TomlVal)) (key : String) (acc : List String) :
    Option (List String) :=
  match data.lookup key with
  | none => some acc
  | some (.table entries) => some (addTableDeps acc entries)
  | some _ => none

/-- The `for target in data["target"].values():` loop of
`_parse_dependencies`: non-table target values are skipped by the
`isinstance` guard; a non-table `target[t]["dependencies"]` raises,
aborting the remaining iterations. -/
def targetFold (acc : List String) : List (String × TomlVal) → Option (List String)
  | [] => some acc
  | t :: ts =>
    match t.2 with
    | .table ttbl =>
      match ttbl.lookup "dependencies" with
      | none => targetFold acc ts
      | some (.table entries) => targetFold (addTableDeps acc entries) ts
      | some _ => none
    | _ => targetFold acc ts

/-- The `target.*.dependencies` walk of `_parse_dependencies`: a
non-table `target` section raises (`.values()` on a non-dict). -/
def targetSection (data : List (String × TomlVal)) (acc : List String) :
    Option (List String) :=
  match data.lookup "target" with
  | none => some acc
  | some (.table targets) => targetFold acc targets
  | some _ => none

/-- `_parse_dependencies` on an already-`toml.loads`-parsed manifest:
consults `dependencies`, `dev-dependencies` and every table under
`target.*.dependencies`, in source order; `none` is a raised exception
(caught by the caller, which then uses an empty list). -/
def parseDependencies (data : List (String × TomlVal)) : Option (List String) :=
  Option.bind (depSection data "dependencies" []) (fun a1 =>
    Option.bind (depSection data "dev-dependencies" a1) (fun a2 =>
      targetSection data a2))

/-- `_get_latest_version`: reads `data["crate"]["max_version"]` from the
registry's JSON; `none` from the registry stands for any network /
non-2xx / JSON-decoding failure, and every failing shape falls to the
sentinel `"1.0.0"` exactly as the bare `except:` does.  The model types
versions as strings, so a `max_version` that is not a JSON string (a
shape outside the registry's documented response) is also mapped to the
sentinel. -/
def getLatestVersion (registry : String → Option TomlVal) (name : String) : String :=
  match registry name with
  | some (.table data) =>
    match data.lookup "crate" with
    | some (.table crateTbl) =>
      match crateTbl.lookup "max_version" with
      | some (.str v) => v
      | _ => "1.0.0"
    | _ => "1.0.0"
  | _ => "1.0.0"

/-- The external world: `manifest name version` is the composition of
`_download_crate`, `_extract_toml` and `toml.loads` (`none` = any of
them raised); `registry name` is the raw JSON answer of
`GET /crates/{name}` (`none` = network / status / JSON failure). -/
structure Env where
  manifest : String → String → Option (List (String × TomlVal))
  registry : String → Option TomlVal

/-- The per-run configuration consumed by `_fetch_all_dependencies`:
`maxDepth = none` models the `float('inf')` default. -/
structure Config where
  packageName : String
  version : String
  maxDepth : Option Nat
  filterSubstring : String
deriving DecidableEq

/-- A queue element `(name, version, depth)`. -/
structure QEntry where
  qname : String
  qver : String
  qdepth : Nat
deriving DecidableEq

/-- Canonical id of a queue element. -/
def qId (q : QEntry) : String := mkId q.qname q.qver

/-- One `self.graph[pkg_id] = deps` record.  `pkgId` is the dict key the
source uses; `name`, `version` and `depth` are ghost fields remembering
the dequeued tuple that created the entry. -/
structure GEntry where
  pkgId : String
  name : String
  version : String
  depth : Nat
  deps : List String
deriving DecidableEq

/-- The loop state of `_fetch_all_dependencies` (plus ghost logs). -/
structure BuildState where
  graph : List GEntry
  visited : List String
  queue : List QEntry
  fetchLog : List (String × String)
  enqLog : List QEntry
deriving DecidableEq

/-- `depth >= max_depth` (always false against `float('inf')`). -/
def depthCut : Option Nat → Nat → Bool
  | none, _ => false
  | some k, d => k ≤ d

/-- Propositional depth bound: trivial when the depth is unbounded. -/
def depthOk : Option Nat → Nat → Prop
  | none, _ => True
  | some k, d => d ≤ k

/-- `if filter_sub and filter_sub in name.lower():` with `filter_sub`
already lowered by the caller. -/
def filterHit (filterSub : String) (name : String) : Bool :=
  filterSub != "" && strContains (pyLower name) filterSub

/-- The keys of the adjacency dict, in insertion order. -/
def graphKeys (g : List GEntry) : List String := g.map GEntry.pkgId

/-- `pkg_id in self.graph`. -/
def graphHas (g : List GEntry) (id : String) : Bool := (graphKeys g).contains id

/-- The dependency list the traversal records for a node: empty when the
download / extraction / TOML parse raised, otherwise the parser's answer
(empty again if `_parse_dependencies` itself raised). -/
def fetchDeps (env : Env) (name version : String) : List String :=
  match env.manifest name version with
  | none => []
  | some data => (parseDependencies data).getD []

/-- Accumulator of the enqueue loop: visited set, queue and ghost
append log. -/
structure EnqAcc where
  vis : List String
  q : List QEntry
  log : List QEntry
deriving DecidableEq

/-- One iteration of the `for dep_name in deps:` loop: resolve the
latest version and enqueue (marking visited) when the resolved id is
unseen. -/
def enqOne (env : Env) (depth : Nat) (acc : EnqAcc) (depName : String) : EnqAcc :=
  let depVersion := getLatestVersion env.registry depName
  let depId := mkId depName depVersion
  if acc.vis.contains depId then acc
  else ⟨acc.vis ++ [depId], acc.q ++ [⟨depName, depVersion, depth + 1⟩],
        acc.log ++ [⟨depName, depVersion, depth + 1⟩]⟩

/-- The whole `for dep_name in deps:` loop. -/
def enqueueDeps (env : Env) (depth : Nat) (deps : List String) (acc : EnqAcc) : EnqAcc :=
  deps.foldl (enqOne env depth) acc

/-- One iteration of the `while queue:` loop of `_fetch_all_dependencies`
(identity on an empty queue). -/
def step (env : Env) (cfg : Config) (s : BuildState) : BuildState :=
  match s.queue with
  | [] => s
  | e :: rest =>
    let pkgId := mkId e.qname e.qver
    if graphHas s.graph pkgId then
      { s with queue := rest }
    else if depthCut cfg.maxDepth e.qdepth then
      { s with queue := rest, graph := s.graph ++ [⟨pkgId, e.qname, e.qver, e.qdepth, []⟩] }
    else if filterHit (pyLower cfg.filterSubstring) e.qname then
      { s with queue := rest, graph := s.graph ++ [⟨pkgId, e.qname, e.qver, e.qdepth, []⟩] }
    else
      let deps := fetchDeps env e.qname e.qver
      let acc := enqueueDeps env e.qdepth deps ⟨s.visited, rest, s.enqLog⟩
      { graph := s.graph ++ [⟨pkgId, e.qname, e.qver, e.qdepth, deps⟩],
        visited := acc.vis,
        queue := acc.q,
        fetchLog := s.fetchLog ++ [(e.qname, e.qver)],
        enqLog := acc.log }

/-- The state just before the loop: empty graph, the root marked visited
and enqueued at depth 0. -/
def initState (cfg : Config) : BuildState :=
  { graph := [],
    visited := [mkId cfg.packageName cfg.version],
    queue := [⟨cfg.packageName, cfg.version, 0⟩],
    fetchLog := [],
    enqLog := [⟨cfg.packageName, cfg.version, 0⟩] }

/-- `n` loop iterations from an arbitrary state. -/
def buildFrom (env : Env) (cfg : Config) (s : BuildState) : Nat → BuildState
  | 0 => s
  | n + 1 => step env cfg (buildFrom env cfg s n)

/-- `n` loop iterations of `build` from the initial state. -/
def buildRun (env : Env) (cfg : Config) (n : Nat) : BuildState :=
  buildFrom env cfg (initState cfg) n

/-- The recursive `dfs` of `show_dependency_order`, fuelled: `vis` is the
per-call visited set, `st` the output stack; each dependency name is
re-resolved and recursed into only when the resolved id is a graph key.
The fuel only bounds nesting depth; `graph-size + 1` always suffices. -/
def topoDfs (g : List (String × List String)) (resolve : String → String) :
    Nat → List String → List String → String → List String × List String
  | 0, vis, st, _ => (vis, st)
  | fuel + 1, vis, st, node =>
    if vis.contains node then (vis, st)
    else
      let deps := (g.lookup node).getD []
      let vs :=
        deps.foldl
          (fun (p : List String × List String) dep =>
            let depId := mkId dep (resolve dep)
            if (g.lookup depId).isSome then topoDfs g resolve fuel p.1 p.2 depId else p)
          (vis ++ [node], st)
      (vs.1, vs.2 ++ [node])

/-- The sequence `show_dependency_order` prints: `reversed(stack)` after
the depth-first post-order walk from the root. -/
def dependencyOrder (g : List (String × List String)) (resolve : String → String)
    (root : String) : List String :=
  ((topoDfs g resolve (g.length + 1) [] [] root).2).reverse

/-- `setdefault`-and-append on the reverse dict: the first entry with the
key gets the value appended, a missing key is created at the end. -/
def rgAdd : List (String × List String) → String → String → List (String × List String)
  | [], key, val => [(key, [val])]
  | (k, l) :: rest, key, val =>
    if k == key then (k, l ++ [val]) :: rest else (k, l) :: rgAdd rest key val

/-- `self.reverse_graph.get(key, [])`. -/
def rgLookup (rg : List (String × List String)) (key : String) : List String :=
  (rg.lookup key).getD []

/-- The reverse-dependency dict built by `show_reverse_dependencies`:
for every graph entry in insertion order, every dependency name is
re-resolved and the depending key is appended under the resolved id. -/
def reverseIndex (g : List (String × List String)) (resolve : String → String) :
    List (String × List String) :=
  g.foldl (fun rg e => e.2.foldl (fun rg dep => rgAdd rg (mkId dep (resolve dep)) e.1) rg) []

/-- `show_reverse_dependencies` overwrites `self.reverse_graph` with a
freshly built dict: the previous value is discarded. -/
def showReverseDeps (prevRG : List (String × List String))
    (g : List (String × List String)) (resolve : String → String) :
    List (String × List String) :=
  reverseIndex g resolve

/-- The reverse-adjacency list of `x` as the spec words it: walking the
graph in iteration order, one entry per dependency name that resolves
to `x`. -/
def revEntries (g : List (String × List String)) (resolve : String → String)
    (x : String) : List String :=
  match g with
  | [] => []
  | e :: rest =>
    (e.2.filter fun dep => mkId dep (resolve dep) == x).map (fun _ => e.1) ++
      revEntries rest resolve x

/-- One dependency of one node in `visualize_graph`: an edge is drawn
only when the resolved id is an existing graph key
(`if dep_id in self.graph`). -/
def renderOne (g : List (String × List String)) (resolve : String → String) (pkg : String)
    (es : List (String × String)) (dep : String) : List (String × String) :=
  let depId := mkId dep (resolve dep)
  if (g.lookup depId).isSome then es ++ [(pkg, depId)] else es

/-- The edges `visualize_graph` draws: one per dependency name whose
resolved id is an existing graph key. -/
def renderEdges (g : List (String × List String)) (resolve : String → String) :
    List (String × String) :=
  g.foldl (fun es e => e.2.foldl (renderOne g resolve e.1) es) []

/-- Modelled from the spec: the skip test as §6 words it — "an entry is
skipped if its value is a table with an `optional` field set to true"
(the exact boolean `true`, not Python truthiness).  Used only to compare
the spec's description of `_parse_dependencies` with the code's. -/
def specSkip : TomlVal → Bool
  | .table entries =>
    match entries.lookup "optional" with
    | some (.boolVal true) => true
    | _ => false
  | _ => false

/-- Modelled from the spec: one section scan under the spec's skip rule. -/
def specAddTableDeps (acc : List String) (entries : List (String × TomlVal)) : List String :=
  entries.foldl (fun a p => if specSkip p.2 then a else addName a p.1) acc

/-- Modelled from the spec: `parseDependencyNames` as §6 describes it —
collect the names of `dependencies`, `dev-dependencies` and every nested
table under `target.*.dependencies`, skipping entries whose value is a
table with `optional` set to the boolean true. -/
def specParseDependencyNames (data : List (String × TomlVal)) : List String :=
  let a1 :=
    match data.lookup "dependencies" with
    | some (.table entries) => specAddTableDeps [] entries
    | _ => []
  let a2 :=
    match data.lookup "dev-dependencies" with
    | some (.table entries) => specAddTableDeps a1 entries
    | _ => a1
  match data.lookup "target" with
  | some (.table targets) =>
    targets.foldl
      (fun a t =>
        match t.2 with
        | .table ttbl =>
          match ttbl.lookup "dependencies" with
          | some (.table entries) => specAddTableDeps a entries
          | _ => a
        | _ => a)
      a2
  | _ => a2

/-! ### Concrete fixtures (the scenarios of spec §8) -/

/-- A registry JSON answer whose `crate.max_version` is `v`. -/
def regOf (v : String) : TomlVal :=
  .table [("crate", .table [("max_version", .str v)])]

/-- Manifests of the demo scenario: `demo → [left, right]`,
`left → [leaf]`, `right → [leaf]`, `leaf → []`. -/
def demoManifest : String → String → Option (List (String × TomlVal))
  | "demo", "1.0" => some [("dependencies", .table [("left", .str "*"), ("right", .str "*")])]
  | "left", "1.0" => some [("dependencies", .table [("leaf", .str "*")])]
  | "right", "1.0" => some [("dependencies", .table [("leaf", .str "*")])]
  | "leaf", "1.0" => some []
  | _, _ => none

/-- A registry that answers version `"1.0"` for every name. -/
def demoRegistry : String → Option TomlVal := fun _ => some (regOf "1.0")

/-- The demo environment. -/
def demoEnv : Env := ⟨demoManifest, demoRegistry⟩

/-- Root `demo@1.0`, no depth bound, no filter. -/
def demoCfg : Config := ⟨"demo", "1.0", none, ""⟩

/-- Root `demo@1.0` with `maxDepth = 1`. -/
def demoCfgD1 : Config := ⟨"demo", "1.0", some 1, ""⟩

/-- Root `demo@1.0` with `filterSubstring = "leaf"`. -/
def demoCfgLeaf : Config := ⟨"demo", "1.0", none, "leaf"⟩

/-- The adjacency pairs of the graph the builder produces on the demo
environment (6 iterations are more than enough to drain the queue). -/
def demoPairs : List (String × List String) :=
  (buildRun demoEnv demoCfg 6).graph.map (fun e => (e.pkgId, e.deps))

/-- Manifests of the diamond scenario `A→{B,C}, B→{D}, C→{D}, D→{}`. -/
def diamondManifest : String → String → Option (List (String × TomlVal))
  | "A", "1.0" => some [("dependencies", .table [("B", .str "*"), ("C", .str "*")])]
  | "B", "1.0" => some [("dependencies", .table [("D", .str "*")])]
  | "C", "1.0" => some [("dependencies", .table [("D", .str "*")])]
  | "D", "1.0" => some []
  | _, _ => none

/-- The diamond environment. -/
def diamondEnv : Env := ⟨diamondManifest, demoRegistry⟩

/-- Root `A@1.0`, no bounds. -/
def diamondCfg : Config := ⟨"A", "1.0", none, ""⟩

/-- An environment where every download and every registry call fails. -/
def envFail : Env := ⟨fun _ _ => none, fun _ => none⟩

/-! ### Basic bridges between boolean tests and propositions -/

theorem memContains {l : List String} {x : String} : l.contains x = true ↔ x ∈ l := by
  induction l with
  | nil => simp
  | cons a t ih =>
    simp only [List.contains_cons, Bool.or_eq_true, beq_iff_eq, List.mem_cons, ih]

theorem notMemContains {l : List String} {x : String} :
    l.contains x = false ↔ x ∉ l := by
  rw [← memContains]
  cases h : l.contains x <;> simp [h]

theorem graphKeysAppend (g : List GEntry) (e : GEntry) :
    graphKeys (g ++ [e]) = graphKeys g ++ [e.pkgId] := by
  simp [graphKeys]

theorem memGraphKeys {g : List GEntry} {x : String} :
    x ∈ graphKeys g ↔ ∃ e ∈ g, e.pkgId = x := by
  simp [graphKeys, List.mem_map]

theorem graphHasFalse {g : List GEntry} {x : String} :
    graphHas g x = false ↔ x ∉ graphKeys g := by
  simp [graphHas, notMemContains]

theorem lookupIsSomeMem {β : Type} {l : List (String × β)} {k : String} :
    (List.lookup k l).isSome = true → k ∈ l.map Prod.fst := by
  induction l with
  | nil => simp [List.lookup]
  | cons a t ih =>
    intro h
    simp only [List.lookup] at h
    by_cases hk : k = a.1
    · simp [hk]
    · have hbeq : (k == a.1) = false := by simp [hk]
      rw [hbeq] at h
      simp [ih h]

/-! ### Case equations for `step` -/

theorem stepNil (env : Env) (cfg : Config) (s : BuildState) (h : s.queue = []) :
    step env cfg s = s := by
  unfold step
  rw [h]

theorem stepSkip (env : Env) (cfg : Config) (s : BuildState) (e : QEntry)
    (rest : List QEntry) (h : s.queue = e :: rest)
    (hg : graphHas s.graph (qId e) = true) :
    step env cfg s = { s with queue := rest } := by
  unfold step
  rw [h]
  simp only [qId] at hg
  simp [hg]

theorem stepCut (env : Env) (cfg : Config) (s : BuildState) (e : QEntry)
    (rest : List QEntry) (h : s.queue = e :: rest)
    (hg : graphHas s.graph (qId e) = false)
    (hd : depthCut cfg.maxDepth e.qdepth = true) :
    step env cfg s =
      { s with queue := rest,
               graph := s.graph ++ [⟨qId e, e.qname, e.qver, e.qdepth, []⟩] } := by
  unfold step
  rw [h]
  simp only [qId] at hg ⊢
  simp [hg, hd]

theorem stepFilter (env : Env) (cfg : Config) (s : BuildState) (e : QEntry)
    (rest : List QEntry) (h : s.queue = e :: rest)
    (hg : graphHas s.graph (qId e) = false)
    (hd : depthCut cfg.maxDepth e.qdepth = false)
    (hf : filterHit (pyLower cfg.filterSubstring) e.qname = true) :
    step env cfg s =
      { s with queue := rest,
               graph := s.graph ++ [⟨qId e, e.qname, e.qver, e.qdepth, []⟩] } := by
  unfold step
  rw [h]
  simp only [qId] at hg ⊢
  simp [hg, hd, hf]

theorem stepNormal (env : Env) (cfg : Config) (s : BuildState) (e : QEntry)
    (rest : List QEntry) (h : s.queue = e :: rest)
    (hg : graphHas s.graph (qId e) = false)
    (hd : depthCut cfg.maxDepth e.qdepth = false)
    (hf : filterHit (pyLower cfg.filterSubstring) e.qname = false) :
    step env cfg s =
      { graph := s.graph ++ [⟨qId e, e.qname, e.qver, e.qdepth, fetchDeps env e.qname e.qver⟩],
        visited := (enqueueDeps env e.qdepth (fetchDeps env e.qname e.qver)
          ⟨s.visited, rest, s.enqLog⟩).vis,
        queue := (enqueueDeps env e.qdepth (fetchDeps env e.qname e.qver)
          ⟨s.visited, rest, s.enqLog⟩).q,
        fetchLog := s.fetchLog ++ [(e.qname, e.qver)],
        enqLog := (enqueueDeps env e.qdepth (fetchDeps env e.qname e.qver)
          ⟨s.visited, rest, s.enqLog⟩).log } := by
  unfold step
  rw [h]
  simp only [qId] at hg ⊢
  simp [hg, hd, hf]

/-! ### Invariants of the enqueue loop -/

/-- Invariant carried through the enqueue loop.  `gks` is the key set of
the graph after the current node's entry is recorded, `V0` the visited
set at loop entry. -/
structure EnqInv (cfg : Config) (gks V0 : List String) (acc : EnqAcc) : Prop where
  visGrow : ∀ x ∈ V0, x ∈ acc.vis
  qVis : ∀ q ∈ acc.q, qId q ∈ acc.vis
  qNodup : (acc.q.map qId).Nodup
  qFresh : ∀ q ∈ acc.q, qId q ∉ gks
  gksVis : ∀ x ∈ gks, x ∈ acc.vis
  qDepth : ∀ q ∈ acc.q, depthOk cfg.maxDepth q.qdepth
  logNodup : (acc.log.map qId).Nodup
  logVis : ∀ q ∈ acc.log, qId q ∈ acc.vis

theorem enqOneInv (env : Env) (cfg : Config) (gks V0 : List String) (d : Nat)
    (hd1 : depthOk cfg.maxDepth (d + 1)) (acc : EnqAcc) (dep : String)
    (h : EnqInv cfg gks V0 acc) : EnqInv cfg gks V0 (enqOne env d acc dep) := by
  have hva := memContains (l := acc.vis) (x := mkId dep (getLatestVersion env.registry dep))
  simp only [enqOne]
  by_cases hm : mkId dep (getLatestVersion env.registry dep) ∈ acc.vis
  · rw [if_pos (hva.mpr hm)]
    exact h
  · have hnv : mkId dep (getLatestVersion env.registry dep) ∉ acc.vis := hm
    rw [if_neg (fun hx => hm (hva.mp hx))]
    constructor
    · intro x hx
      exact List.mem_append_left _ (h.visGrow x hx)
    · intro q hq
      rcases List.mem_append.mp hq with hq | hq
      · exact List.mem_append_left _ (h.qVis q hq)
      · rcases List.mem_singleton.mp hq with rfl
        exact List.mem_append_right _ (by simp [qId])
    · rw [List.map_append, List.nodup_append]
      refine ⟨h.qNodup, by simp, ?_⟩
      intro x hx hx'
      have hx2 : x = mkId dep (getLatestVersion env.registry dep) := by
        simpa [qId] using hx'
      rcases List.mem_map.mp hx with ⟨q, hq, hqx⟩
      have : mkId dep (getLatestVersion env.registry dep) ∈ acc.vis := by
        rw [← hx2, ← hqx]
        exact h.qVis q hq
      exact hnv this
    · intro q hq
      rcases List.mem_append.mp hq with hq | hq
      · exact h.qFresh q hq
      · rcases List.mem_singleton.mp hq with rfl
        intro hmem
        exact hnv (h.gksVis _ (by simpa [qId] using hmem))
    · intro x hx
      exact List.mem_append_left _ (h.gksVis x hx)
    · intro q hq
      rcases List.mem_append.mp hq with hq | hq
      · exact h.qDepth q hq
      · rcases List.mem_singleton.mp hq with rfl
        exact hd1
    · rw [List.map_append, List.nodup_append]
      refine ⟨h.logNodup, by simp, ?_⟩
      intro x hx hx'
      have hx2 : x = mkId dep (getLatestVersion env.registry dep) := by
        simpa [qId] using hx'
      rcases List.mem_map.mp hx with ⟨q, hq, hqx⟩
      have : mkId dep (getLatestVersion env.registry dep) ∈ acc.vis := by
        rw [← hx2, ← hqx]
        exact h.logVis q hq
      exact hnv this
    · intro q hq
      rcases List.mem_append.mp hq with hq | hq
      · exact List.mem_append_left _ (h.logVis q hq)
      · rcases List.mem_singleton.mp hq with rfl
        exact List.mem_append_right _ (by simp [qId])

theorem enqueueDepsInv (env : Env) (cfg : Config) (gks V0 : List String) (d : Nat)
    (hd1 : depthOk cfg.maxDepth (d + 1)) :
    ∀ (deps : List String) (acc : EnqAcc), EnqInv cfg gks V0 acc →
      EnqInv cfg gks V0 (enqueueDeps env d deps acc) := by
  intro deps
  induction deps with
  | nil => intro acc h; exact h
  | cons dep rest ih =>
    intro acc h
    exact ih (enqOne env d acc dep) (enqOneInv env cfg gks V0 d hd1 acc dep h)

/-! ### The loop invariant of `_fetch_all_dependencies` -/

/-- All the bookkeeping facts the breadth-first loop maintains. -/
structure Inv (cfg : Config) (s : BuildState) : Prop where
  graphNodup : (graphKeys s.graph).Nodup
  graphVisited : ∀ e ∈ s.graph, e.pkgId ∈ s.visited
  queueVisited : ∀ q ∈ s.queue, qId q ∈ s.visited
  queueNodup : (s.queue.map qId).Nodup
  queueFresh : ∀ q ∈ s.queue, qId q ∉ graphKeys s.graph
  graphDepth : ∀ e ∈ s.graph, depthOk cfg.maxDepth e.depth
  queueDepth : ∀ q ∈ s.queue, depthOk cfg.maxDepth q.qdepth
  cutEmpty : ∀ e ∈ s.graph, depthCut cfg.maxDepth e.depth = true → e.deps = []
  filterEmpty : ∀ e ∈ s.graph,
    filterHit (pyLower cfg.filterSubstring) e.name = true → e.deps = []
  fetchNodup : (s.fetchLog.map (fun p => mkId p.1 p.2)).Nodup
  fetchSub : ∀ p ∈ s.fetchLog, mkId p.1 p.2 ∈ graphKeys s.graph
  fetchAll : ∀ e ∈ s.graph, depthCut cfg.maxDepth e.depth = false →
    filterHit (pyLower cfg.filterSubstring) e.name = false →
    (e.name, e.version) ∈ s.fetchLog
  enqNodup : (s.enqLog.map qId).Nodup
  enqVisited : ∀ q ∈ s.enqLog, qId q ∈ s.visited

theorem invInit (cfg : Config) : Inv cfg (initState cfg) := by
  have hd0 : depthOk cfg.maxDepth 0 := by
    cases cfg.maxDepth <;> simp [depthOk]
  constructor <;> simp [initState, graphKeys, qId, hd0]

theorem invRecordEmpty (cfg : Config) (s : BuildState) (e : QEntry) (rest : List QEntry)
    (hq : s.queue = e :: rest) (h : Inv cfg s)
    (hfresh : qId e ∉ graphKeys s.graph)
    (hCF : depthCut cfg.maxDepth e.qdepth = true ∨
      filterHit (pyLower cfg.filterSubstring) e.qname = true) :
    Inv cfg { s with queue := rest,
                     graph := s.graph ++ [⟨qId e, e.qname, e.qver, e.qdepth, []⟩] } := by
  have headMem : e ∈ s.queue := by
    rw [hq]
    exact List.mem_cons_self _ _
  have headVis : qId e ∈ s.visited := h.queueVisited e headMem
  have headDepth : depthOk cfg.maxDepth e.qdepth := h.queueDepth e headMem
  have hqn := h.queueNodup
  rw [hq, List.map_cons, List.nodup_cons] at hqn
  have restQ : ∀ q ∈ rest, q ∈ s.queue := by
    intro q hqq
    rw [hq]
    exact List.mem_cons_of_mem _ hqq
  constructor
  · rw [graphKeysAppend, List.nodup_append]
    refine ⟨h.graphNodup, by simp, ?_⟩
    intro x hx hx'
    simp only [List.mem_singleton] at hx'
    subst hx'
    exact hfresh hx
  · intro e' he'
    rcases List.mem_append.mp he' with he' | he'
    · exact h.graphVisited e' he'
    · rcases List.mem_singleton.mp he' with rfl
      exact headVis
  · intro q hqq
    exact h.queueVisited q (restQ q hqq)
  · exact hqn.2
  · intro q hqq
    rw [graphKeysAppend]
    intro hmem
    rcases List.mem_append.mp hmem with hmem | hmem
    · exact h.queueFresh q (restQ q hqq) hmem
    · simp only [List.mem_singleton] at hmem
      exact hqn.1 (by rw [← hmem]; exact List.mem_map_of_mem qId hqq)
  · intro e' he'
    rcases List.mem_append.mp he' with he' | he'
    · exact h.graphDepth e' he'
    · rcases List.mem_singleton.mp he' with rfl
      exact headDepth
  · intro q hqq
    exact h.queueDepth q (restQ q hqq)
  · intro e' he'
    rcases List.mem_append.mp he' with he' | he'
    · exact h.cutEmpty e' he'
    · rcases List.mem_singleton.mp he' with rfl
      intro _
      rfl
  · intro e' he'
    rcases List.mem_append.mp he' with he' | he'
    · exact h.filterEmpty e' he'
    · rcases List.mem_singleton.mp he' with rfl
      intro _
      rfl
  · exact h.fetchNodup
  · intro p hp
    rw [graphKeysAppend]
    exact List.mem_append_left _ (h.fetchSub p hp)
  · intro e' he'
    rcases List.mem_append.mp he' with he' | he'
    · exact h.fetchAll e' he'
    · rcases List.mem_singleton.mp he' with rfl
      intro hcut hfil
      rcases hCF with hCF | hCF
      · rw [hcut] at hCF
        cases hCF
      · rw [hfil] at hCF
        cases hCF
  · exact h.enqNodup
  · exact h.enqVisited

theorem invStep (env : Env) (cfg : Config) (s : BuildState) (h : Inv cfg s) :
    Inv cfg (step env cfg s) := by
  cases hq : s.queue with
  | nil =>
    rw [stepNil env cfg s hq]
    exact h
  | cons e rest =>
    have headMem : e ∈ s.queue := by
      rw [hq]
      exact List.mem_cons_self _ _
    have headVis : qId e ∈ s.visited := h.queueVisited e headMem
    have headDepth : depthOk cfg.maxDepth e.qdepth := h.queueDepth e headMem
    have hqn := h.queueNodup
    rw [hq, List.map_cons, List.nodup_cons] at hqn
    have restQ : ∀ q ∈ rest, q ∈ s.queue := by
      intro q hqq
      rw [hq]
      exact List.mem_cons_of_mem _ hqq
    by_cases hg : graphHas s.graph (qId e) = true
    · rw [stepSkip env cfg s e rest hq hg]
      exact ⟨h.graphNodup, h.graphVisited,
        fun q hqq => h.queueVisited q (restQ q hqq), hqn.2,
        fun q hqq => h.queueFresh q (restQ q hqq), h.graphDepth,
        fun q hqq => h.queueDepth q (restQ q hqq), h.cutEmpty, h.filterEmpty,
        h.fetchNodup, h.fetchSub, h.fetchAll, h.enqNodup, h.enqVisited⟩
    · have hg' : graphHas s.graph (qId e) = false := by
        cases hx : graphHas s.graph (qId e)
        · rfl
        · exact absurd hx hg
      have hfresh : qId e ∉ graphKeys s.graph := graphHasFalse.mp hg'
      by_cases hd : depthCut cfg.maxDepth e.qdepth = true
      · rw [stepCut env cfg s e rest hq hg' hd]
        exact invRecordEmpty cfg s e rest hq h hfresh (Or.inl hd)
      · have hd' : depthCut cfg.maxDepth e.qdepth = false := by
          cases hx : depthCut cfg.maxDepth e.qdepth
          · rfl
          · exact absurd hx hd
        by_cases hf : filterHit (pyLower cfg.filterSubstring) e.qname = true
        · rw [stepFilter env cfg s e rest hq hg' hd' hf]
          exact invRecordEmpty cfg s e rest hq h hfresh (Or.inr hf)
        · have hf' : filterHit (pyLower cfg.filterSubstring) e.qname = false := by
            cases hx : filterHit (pyLower cfg.filterSubstring) e.qname
            · rfl
            · exact absurd hx hf
          rw [stepNormal env cfg s e rest hq hg' hd' hf']
          have hd1 : depthOk cfg.maxDepth (e.qdepth + 1) := by
            cases hk : cfg.maxDepth with
            | none => trivial
            | some k =>
              rw [hk] at hd'
              simp only [depthCut, decide_eq_false_iff_not] at hd'
              simp only [depthOk]
              omega
          have einv0 : EnqInv cfg (graphKeys s.graph ++ [qId e]) s.visited
              ⟨s.visited, rest, s.enqLog⟩ := by
            constructor
            · intro x hx
              exact hx
            · intro q hqq
              exact h.queueVisited q (restQ q hqq)
            · exact hqn.2
            · intro q hqq hmem
              rcases List.mem_append.mp hmem with hmem | hmem
              · exact h.queueFresh q (restQ q hqq) hmem
              · simp only [List.mem_singleton] at hmem
                exact hqn.1 (by rw [← hmem]; exact List.mem_map_of_mem qId hqq)
            · intro x hx
              rcases List.mem_append.mp hx with hx | hx
              · rcases memGraphKeys.mp hx with ⟨e', he', rfl⟩
                exact h.graphVisited e' he'
              · rcases List.mem_singleton.mp hx with rfl
                exact headVis
            · intro q hqq
              exact h.queueDepth q (restQ q hqq)
            · exact h.enqNodup
            · exact h.enqVisited
          have einv := enqueueDepsInv env cfg (graphKeys s.graph ++ [qId e]) s.visited
            e.qdepth hd1 (fetchDeps env e.qname e.qver) ⟨s.visited, rest, s.enqLog⟩ einv0
          constructor
          · rw [graphKeysAppend, List.nodup_append]
            refine ⟨h.graphNodup, by simp, ?_⟩
            intro x hx hx'
            simp only [List.mem_singleton] at hx'
            subst hx'
            exact hfresh hx
          · intro e' he'
            rcases List.mem_append.mp he' with he' | he'
            · exact einv.visGrow _ (h.graphVisited e' he')
            · rcases List.mem_singleton.mp he' with rfl
              exact einv.visGrow _ headVis
          · exact einv.qVis
          · exact einv.qNodup
          · intro q hqq
            rw [graphKeysAppend]
            exact einv.qFresh q hqq
          · intro e' he'
            rcases List.mem_append.mp he' with he' | he'
            · exact h.graphDepth e' he'
            · rcases List.mem_singleton.mp he' with rfl
              exact headDepth
          · exact einv.qDepth
          · intro e' he'
            rcases List.mem_append.mp he' with he' | he'
            · exact h.cutEmpty e' he'
            · rcases List.mem_singleton.mp he' with rfl
              intro hcut
              rw [hd'] at hcut
              cases hcut
          · intro e' he'
            rcases List.mem_append.mp he' with he' | he'
            · exact h.filterEmpty e' he'
            · rcases List.mem_singleton.mp he' with rfl
              intro hfil
              rw [hf'] at hfil
              cases hfil
          · rw [List.map_append, List.nodup_append]
            refine ⟨h.fetchNodup, by simp, ?_⟩
            intro x hx hx'
            simp only [List.map_cons, List.map_nil, List.mem_singleton] at hx'
            rcases List.mem_map.mp hx with ⟨p, hp, hpx⟩
            have : x ∈ graphKeys s.graph := by
              rw [← hpx]
              exact h.fetchSub p hp
            rw [hx'] at this
            exact hfresh this
          · intro p hp
            rw [graphKeysAppend]
            rcases List.mem_append.mp hp with hp | hp
            · exact List.mem_append_left _ (h.fetchSub p hp)
            · rcases List.mem_singleton.mp hp with rfl
              exact List.mem_append_right _ (by simp [qId])
          · intro e' he'
            rcases List.mem_append.mp he' with he' | he'
            · intro hcut hfil
              exact List.mem_append_left _ (h.fetchAll e' he' hcut hfil)
            · rcases List.mem_singleton.mp he' with rfl
              intro _ _
              exact List.mem_append_right _ (by simp)
          · exact einv.logNodup
          · exact einv.logVis

/-- `Inv` holds after any number of iterations from the initial state. -/
theorem invRun (env : Env) (cfg : Config) : ∀ n, Inv cfg (buildRun env cfg n) := by
  intro n
  induction n with
  | zero => exact invInit cfg
  | succ n ih => exact invStep env cfg (buildRun env cfg n) ih

/-- The graph only ever grows by appended entries in one step. -/
theorem stepGraphMono (env : Env) (cfg : Config) (s : BuildState) :
    ∃ t, (step env cfg s).graph = s.graph ++ t := by
  cases hq : s.queue with
  | nil =>
    rw [stepNil env cfg s hq]
    exact ⟨[], by simp⟩
  | cons e rest =>
    by_cases hg : graphHas s.graph (qId e) = true
    · rw [stepSkip env cfg s e rest hq hg]
      exact ⟨[], by simp⟩
    · have hg' : graphHas s.graph (qId e) = false := by
        cases hx : graphHas s.graph (qId e)
        · rfl
        · exact absurd hx hg
      by_cases hd : depthCut cfg.maxDepth e.qdepth = true
      · rw [stepCut env cfg s e rest hq hg' hd]
        exact ⟨_, rfl⟩
      · have hd' : depthCut cfg.maxDepth e.qdepth = false := by
          cases hx : depthCut cfg.maxDepth e.qdepth
          · rfl
          · exact absurd hx hd
        by_cases hf : filterHit (pyLower cfg.filterSubstring) e.qname = true
        · rw [stepFilter env cfg s e rest hq hg' hd' hf]
          exact ⟨_, rfl⟩
        · have hf' : filterHit (pyLower cfg.filterSubstring) e.qname = false := by
            cases hx : filterHit (pyLower cfg.filterSubstring) e.qname
            · rfl
            · exact absurd hx hf
          rw [stepNormal env cfg s e rest hq hg' hd' hf']
          exact ⟨_, rfl⟩

/-! ### The claims -/

/-- Claim C1: the spec asserts that the sequence printed by
`show_dependency_order` — the post-order output stack, reversed — puts
every dependency strictly before its dependent and the root last.  On
the graph the builder produces for the demo scenario the printed
sequence is root-first and leaf-last: the post-order stack is already
the leaves-to-root order, and `reversed(stack)` inverts it, so the code
contradicts the claimed (and self-documented, "от листьев к корню")
order.  This theorem evaluates the model at that failing input. -/
theorem claim_C1_topo_order_eval :
    dependencyOrder demoPairs (getLatestVersion demoEnv.registry) "demo@1.0" =
      ["demo@1.0", "right@1.0", "left@1.0", "leaf@1.0"] ∧
    demoPairs = [("demo@1.0", ["left", "right"]), ("left@1.0", ["leaf"]),
      ("right@1.0", ["leaf"]), ("leaf@1.0", [])] :=
  ⟨by decide, by decide⟩

/-- Claim C2: with `maxDepth = k` every recorded node and every queued
tuple carries a discovery depth at most `k` (the ghost `depth` field is
the length of the discovery path from the root), and a node dequeued at
depth exactly `k` is recorded with an empty dependency list while the
traversal moves on: nothing is fetched (`fetchLog` unchanged), nothing
is enqueued (`queue := rest`, `visited` and `enqLog` unchanged). -/
theorem claim_C2_depth_bound (env : Env) (cfg : Config) (k n : Nat)
    (hk : cfg.maxDepth = some k) :
    (∀ e ∈ (buildRun env cfg n).graph, e.depth ≤ k) ∧
    (∀ q ∈ (buildRun env cfg n).queue, q.qdepth ≤ k) ∧
    (∀ e rest, (buildRun env cfg n).queue = e :: rest → e.qdepth = k →
      step env cfg (buildRun env cfg n) =
        { (buildRun env cfg n) with
          queue := rest,
          graph := (buildRun env cfg n).graph ++ [⟨qId e, e.qname, e.qver, e.qdepth, []⟩] }) := by
  have hinv := invRun env cfg n
  refine ⟨?_, ?_, ?_⟩
  · intro e he
    have h1 := hinv.graphDepth e he
    rw [hk] at h1
    exact h1
  · intro q hqq
    have h1 := hinv.queueDepth q hqq
    rw [hk] at h1
    exact h1
  · intro e rest hq hdep
    have hfresh := hinv.queueFresh e (by rw [hq]; exact List.mem_cons_self _ _)
    have hg : graphHas (buildRun env cfg n).graph (qId e) = false := graphHasFalse.mpr hfresh
    have hcut : depthCut cfg.maxDepth e.qdepth = true := by
      rw [hk, hdep]
      simp [depthCut]
    exact stepCut env cfg _ e rest hq hg hcut

/-- Witness for C2 on the depth-1 demo scenario: dequeuing `left@1.0`
at depth 1 records it with an empty list and only pops the queue. -/
theorem claim_C2_witness :
    step demoEnv demoCfgD1 (buildRun demoEnv demoCfgD1 1) =
      { (buildRun demoEnv demoCfgD1 1) with
        queue := [⟨"right", "1.0", 1⟩],
        graph := (buildRun demoEnv demoCfgD1 1).graph ++ [⟨"left@1.0", "left", "1.0", 1, []⟩] } := by
  have h := (claim_C2_depth_bound demoEnv demoCfgD1 1 1 rfl).2.2 ⟨"left", "1.0", 1⟩
    [⟨"right", "1.0", 1⟩] (by decide) rfl
  exact h

/-- Claim C3: with a non-empty filter substring, (a) every graph entry
whose name matches the (lowered) filter is recorded with an empty
dependency list, (b) dequeuing a matching node records it with an empty
list and only pops the queue — no fetch, no enqueue — while the node
itself still becomes a graph key, and (c) a step on a non-matching node
is exactly the step the builder would take with no filter at all. -/
theorem claim_C3_filter_bound (env : Env) (cfg : Config) (n : Nat)
    (hne : cfg.filterSubstring ≠ "") :
    (∀ e ∈ (buildRun env cfg n).graph,
      filterHit (pyLower cfg.filterSubstring) e.name = true → e.deps = []) ∧
    (∀ e rest, (buildRun env cfg n).queue = e :: rest →
      filterHit (pyLower cfg.filterSubstring) e.qname = true →
      step env cfg (buildRun env cfg n) =
        { (buildRun env cfg n) with
          queue := rest,
          graph := (buildRun env cfg n).graph ++ [⟨qId e, e.qname, e.qver, e.qdepth, []⟩] }) ∧
    (∀ e rest, (buildRun env cfg n).queue = e :: rest →
      filterHit (pyLower cfg.filterSubstring) e.qname = false →
      step env cfg (buildRun env cfg n) =
        step env { cfg with filterSubstring := "" } (buildRun env cfg n)) := by
  have hinv := invRun env cfg n
  have hfe : filterHit (pyLower "") = fun _ => false := by
    funext x
    simp [filterHit, pyLower]
  refine ⟨hinv.filterEmpty, ?_, ?_⟩
  · intro e rest hq hf
    have hfresh := hinv.queueFresh e (by rw [hq]; exact List.mem_cons_self _ _)
    have hg : graphHas (buildRun env cfg n).graph (qId e) = false := graphHasFalse.mpr hfresh
    by_cases hd : depthCut cfg.maxDepth e.qdepth = true
    · exact stepCut env cfg _ e rest hq hg hd
    · have hd' : depthCut cfg.maxDepth e.qdepth = false := by
        cases hx : depthCut cfg.maxDepth e.qdepth
        · rfl
        · exact absurd hx hd
      exact stepFilter env cfg _ e rest hq hg hd' hf
  · intro e rest hq hf
    have hfresh := hinv.queueFresh e (by rw [hq]; exact List.mem_cons_self _ _)
    have hg : graphHas (buildRun env cfg n).graph (qId e) = false := graphHasFalse.mpr hfresh
    have hf0 : filterHit (pyLower ({ cfg with filterSubstring := "" } : Config).filterSubstring)
        e.qname = false := by
      show filterHit (pyLower "") e.qname = false
      rw [hfe]
    by_cases hd : depthCut cfg.maxDepth e.qdepth = true
    · rw [stepCut env cfg _ e rest hq hg hd,
        stepCut env { cfg with filterSubstring := "" } _ e rest hq hg hd]
    · have hd' : depthCut cfg.maxDepth e.qdepth = false := by
        cases hx : depthCut cfg.maxDepth e.qdepth
        · rfl
        · exact absurd hx hd
      rw [stepNormal env cfg _ e rest hq hg hd' hf,
        stepNormal env { cfg with filterSubstring := "" } _ e rest hq hg hd' hf0]

/-- Witness for C3 on the filtered demo scenario: dequeuing `leaf@1.0`
(matching filter `"leaf"`) records it with an empty list and pops the
queue, and dequeuing the non-matching root behaves as with no filter. -/
theorem claim_C3_witness :
    step demoEnv demoCfgLeaf (buildRun demoEnv demoCfgLeaf 3) =
      { (buildRun demoEnv demoCfgLeaf 3) with
        queue := [],
        graph := (buildRun demoEnv demoCfgLeaf 3).graph ++ [⟨"leaf@1.0", "leaf", "1.0", 2, []⟩] } ∧
    step demoEnv demoCfgLeaf (buildRun demoEnv demoCfgLeaf 0) =
      step demoEnv { demoCfgLeaf with filterSubstring := "" } (buildRun demoEnv demoCfgLeaf 0) := by
  constructor
  · exact (claim_C3_filter_bound demoEnv demoCfgLeaf 3 (by decide)).2.1 ⟨"leaf", "1.0", 2⟩ []
      (by decide) (by decide)
  · exact (claim_C3_filter_bound demoEnv demoCfgLeaf 0 (by decide)).2.2 ⟨"demo", "1.0", 0⟩ []
      (by decide) (by decide)

/-- Claim C4: graph keys are pairwise distinct after any number of
iterations, one iteration only ever appends entries (nothing is
overwritten or removed), and the diamond scenario `A→{B,C}, B→{D},
C→{D}` produces exactly one entry for `D`. -/
theorem claim_C4_idempotent_discovery (env : Env) (cfg : Config) (n : Nat) :
    (graphKeys (buildRun env cfg n).graph).Nodup ∧
    (∃ t, (buildRun env cfg (n + 1)).graph = (buildRun env cfg n).graph ++ t) ∧
    (graphKeys (buildRun diamondEnv diamondCfg 10).graph).count "D@1.0" = 1 ∧
    graphKeys (buildRun diamondEnv diamondCfg 10).graph = ["A@1.0", "B@1.0", "C@1.0", "D@1.0"] :=
  ⟨(invRun env cfg n).graphNodup, stepGraphMono env cfg (buildRun env cfg n),
   by decide, by decide⟩

/-- Claim C7: `_get_latest_version` returns the `crate.max_version`
string of the registry's JSON answer on success, the sentinel `"1.0.0"`
on a failed request or a missing `crate` / `max_version` field, and in
every case produces one of those two outcomes — it is a total function
and no exception escapes it. -/
theorem claim_C7_latest_version (reg : String → Option TomlVal) (name : String) :
    (∀ d c v, reg name = some (.table d) → List.lookup "crate" d = some (.table c) →
      List.lookup "max_version" c = some (.str v) → getLatestVersion reg name = v) ∧
    (reg name = none → getLatestVersion reg name = "1.0.0") ∧
    (∀ d, reg name = some (.table d) → List.lookup "crate" d = none →
      getLatestVersion reg name = "1.0.0") ∧
    (∀ d c, reg name = some (.table d) → List.lookup "crate" d = some (.table c) →
      List.lookup "max_version" c = none → getLatestVersion reg name = "1.0.0") ∧
    (getLatestVersion reg name = "1.0.0" ∨
      ∃ d c v, reg name = some (.table d) ∧ List.lookup "crate" d = some (.table c) ∧
        List.lookup "max_version" c = some (.str v) ∧ getLatestVersion reg name = v) := by
  refine ⟨?_, ?_, ?_, ?_, ?_⟩
  · intro d c v h1 h2 h3
    simp [getLatestVersion, h1, h2, h3]
  · intro h1
    simp [getLatestVersion, h1]
  · intro d h1 h2
    simp [getLatestVersion, h1, h2]
  · intro d c h1 h2 h3
    simp [getLatestVersion, h1, h2, h3]
  · cases h1 : reg name with
    | none => exact Or.inl (by simp [getLatestVersion, h1])
    | some j =>
      cases j with
      | str s => exact Or.inl (by simp [getLatestVersion, h1])
      | boolVal b => exact Or.inl (by simp [getLatestVersion, h1])
      | intVal m => exact Or.inl (by simp [getLatestVersion, h1])
      | table d =>
        cases h2 : List.lookup "crate" d with
        | none => exact Or.inl (by simp [getLatestVersion, h1, h2])
        | some c =>
          cases c with
          | str s => exact Or.inl (by simp [getLatestVersion, h1, h2])
          | boolVal b => exact Or.inl (by simp [getLatestVersion, h1, h2])
          | intVal m => exact Or.inl (by simp [getLatestVersion, h1, h2])
          | table ct =>
            cases h3 : List.lookup "max_version" ct with
            | none => exact Or.inl (by simp [getLatestVersion, h1, h2, h3])
            | some v =>
              cases v with
              | str s =>
                exact Or.inr ⟨d, ct, s, rfl, h2, h3, by simp [getLatestVersion, h1, h2, h3]⟩
              | boolVal b => exact Or.inl (by simp [getLatestVersion, h1, h2, h3])
              | intVal m => exact Or.inl (by simp [getLatestVersion, h1, h2, h3])
              | table t2 => exact Or.inl (by simp [getLatestVersion, h1, h2, h3])

/-- A registry whose every crate answers `max_version = "2.3.4"`. -/
def regGood : String → Option TomlVal := fun _ => some (regOf "2.3.4")

/-- Witness for C7: a concrete successful lookup and a concrete failed
one. -/
theorem claim_C7_witness :
    getLatestVersion regGood "serde" = "2.3.4" ∧
    getLatestVersion (fun _ => none) "tokio" = "1.0.0" :=
  ⟨(claim_C7_latest_version regGood "serde").1 _ _ _ rfl rfl rfl,
   (claim_C7_latest_version (fun _ => none) "tokio").2.1 rfl⟩

/-- Claim C9: starting from the empty graph, no package id is ever
appended to the queue twice (the ghost `enqLog` of all `queue.append`
calls has pairwise-distinct ids), and the id at the head of the queue
is never already a graph key — the defensive `if pkg_id in self.graph`
skip branch can never fire. -/
theorem claim_C9_skip_branch_unreachable (env : Env) (cfg : Config) (n : Nat) :
    ((buildRun env cfg n).enqLog.map qId).Nodup ∧
    (∀ e rest, (buildRun env cfg n).queue = e :: rest →
      graphHas (buildRun env cfg n).graph (qId e) = false) := by
  refine ⟨(invRun env cfg n).enqNodup, ?_⟩
  intro e rest hq
  exact graphHasFalse.mpr
    ((invRun env cfg n).queueFresh e (by rw [hq]; exact List.mem_cons_self _ _))

/-- Witness for C9 on the demo run after one iteration. -/
theorem claim_C9_witness :
    ((buildRun demoEnv demoCfg 1).enqLog.map qId).Nodup ∧
    graphHas (buildRun demoEnv demoCfg 1).graph (qId ⟨"left", "1.0", 1⟩) = false :=
  ⟨(claim_C9_skip_branch_unreachable demoEnv demoCfg 1).1,
   (claim_C9_skip_branch_unreachable demoEnv demoCfg 1).2 ⟨"left", "1.0", 1⟩
     [⟨"right", "1.0", 1⟩] (by decide)⟩

/-! ### Characterizing `_parse_dependencies` (claim C8) -/

/-- Some occurrence of name `a` in a section survives the optional-skip
test. -/
def entryHit (entries : List (String × TomlVal)) (a : String) : Prop :=
  ∃ info, (a, info) ∈ entries ∧ skipOptional info = false

/-- Name `a` is contributed by section `key` of the manifest. -/
def sectionHit (data : List (String × TomlVal)) (key : String) (a : String) : Prop :=
  ∃ entries, List.lookup key data = some (.table entries) ∧ entryHit entries a

/-- Name `a` is contributed by some target table's `dependencies`
table. -/
def targetHitL (targets : List (String × TomlVal)) (a : String) : Prop :=
  ∃ tname ttbl, (tname, TomlVal.table ttbl) ∈ targets ∧
    ∃ entries, List.lookup "dependencies" ttbl = some (.table entries) ∧ entryHit entries a

/-- Name `a` is contributed by the `target` section of the manifest. -/
def targetHit (data : List (String × TomlVal)) (a : String) : Prop :=
  ∃ targets, List.lookup "target" data = some (.table targets) ∧ targetHitL targets a

theorem entryHitCons (p1 : String) (p2 : TomlVal) (t : List (String × TomlVal)) (a : String) :
    entryHit ((p1, p2) :: t) a ↔
      (a = p1 ∧ skipOptional p2 = false) ∨ entryHit t a := by
  constructor
  · rintro ⟨info, hmem, hskip⟩
    rcases List.mem_cons.mp hmem with heq | hmem'
    · have ha : a = p1 := congrArg Prod.fst heq
      have hi : info = p2 := congrArg Prod.snd heq
      exact Or.inl ⟨ha, hi ▸ hskip⟩
    · exact Or.inr ⟨info, hmem', hskip⟩
  · rintro (⟨ha, hsk⟩ | ⟨info, hmem, hskip⟩)
    · exact ⟨p2, by rw [ha]; exact List.mem_cons_self _ _, hsk⟩
    · exact ⟨info, List.mem_cons_of_mem _ hmem, hskip⟩

theorem memAddName (acc : List String) (n a : String) :
    a ∈ addName acc n ↔ a ∈ acc ∨ a = n := by
  unfold addName
  by_cases hc : n ∈ acc
  · rw [if_pos (memContains.mpr hc)]
    constructor
    · exact Or.inl
    · rintro (h | rfl)
      · exact h
      · exact hc
  · rw [if_neg (fun hx => hc (memContains.mp hx))]
    simp [List.mem_append]

theorem nodupAddName (acc : List String) (n : String) (h : acc.Nodup) :
    (addName acc n).Nodup := by
  unfold addName
  by_cases hc : n ∈ acc
  · rw [if_pos (memContains.mpr hc)]
    exact h
  · rw [if_neg (fun hx => hc (memContains.mp hx))]
    rw [List.nodup_append]
    refine ⟨h, by simp, ?_⟩
    intro x hx hx'
    simp only [List.mem_singleton] at hx'
    subst hx'
    exact hc hx

theorem memAddTableDeps : ∀ (entries : List (String × TomlVal)) (acc : List String) (a : String),
    a ∈ addTableDeps acc entries ↔ a ∈ acc ∨ entryHit entries a := by
  intro entries
  induction entries with
  | nil =>
    intro acc a
    simp [addTableDeps, entryHit]
  | cons p t ih =>
    intro acc a
    obtain ⟨p1, p2⟩ := p
    have hfold : addTableDeps acc ((p1, p2) :: t) =
        addTableDeps (if skipOptional p2 then acc else addName acc p1) t := rfl
    rw [hfold]
    by_cases hs : skipOptional p2 = true
    · rw [if_pos hs, ih acc a, entryHitCons]
      simp [hs]
    · have hs' : skipOptional p2 = false := by
        cases hx : skipOptional p2
        · rfl
        · exact absurd hx hs
      rw [if_neg hs, ih (addName acc p1) a, memAddName, entryHitCons]
      simp only [hs', and_true]
      tauto

theorem nodupAddTableDeps : ∀ (entries : List (String × TomlVal)) (acc : List String),
    acc.Nodup → (addTableDeps acc entries).Nodup := by
  intro entries
  induction entries with
  | nil =>
    intro acc h
    exact h
  | cons p t ih =>
    intro acc h
    obtain ⟨p1, p2⟩ := p
    have hfold : addTableDeps acc ((p1, p2) :: t) =
        addTableDeps (if skipOptional p2 then acc else addName acc p1) t := rfl
    rw [hfold]
    by_cases hs : skipOptional p2 = true
    · rw [if_pos hs]
      exact ih acc h
    · rw [if_neg hs]
      exact ih (addName acc p1) (nodupAddName acc p1 h)

theorem depSectionChar (data : List (String × TomlVal)) (key : String) (acc out : List String)
    (h : depSection data key acc = some out) :
    (∀ a, a ∈ out ↔ a ∈ acc ∨ sectionHit data key a) ∧ (acc.Nodup → out.Nodup) := by
  unfold depSection at h
  cases hl : List.lookup key data with
  | none =>
    rw [hl] at h
    injection h with h
    subst h
    exact ⟨fun a => by simp [sectionHit, hl], id⟩
  | some v =>
    rw [hl] at h
    cases v with
    | str s => cases h
    | boolVal b => cases h
    | intVal n => cases h
    | table entries =>
      injection h with h
      subst h
      refine ⟨fun a => ?_, fun hn => nodupAddTableDeps entries acc hn⟩
      rw [memAddTableDeps]
      simp [sectionHit, hl]

theorem targetHitLCons (t1 : String) (t2 : TomlVal) (ts : List (String × TomlVal)) (a : String) :
    targetHitL ((t1, t2) :: ts) a ↔
      (∃ ttbl, t2 = TomlVal.table ttbl ∧
        ∃ entries, List.lookup "dependencies" ttbl = some (.table entries) ∧ entryHit entries a) ∨
      targetHitL ts a := by
  constructor
  · rintro ⟨tn, ttbl, hmem, es, hlk, hhit⟩
    rcases List.mem_cons.mp hmem with heq | hmem'
    · have h2 : TomlVal.table ttbl = t2 := congrArg Prod.snd heq
      exact Or.inl ⟨ttbl, h2.symm, es, hlk, hhit⟩
    · exact Or.inr ⟨tn, ttbl, hmem', es, hlk, hhit⟩
  · rintro (⟨ttbl, h2, es, hlk, hhit⟩ | ⟨tn, ttbl, hmem, es, hlk, hhit⟩)
    · subst h2
      exact ⟨t1, ttbl, List.mem_cons_self _ _, es, hlk, hhit⟩
    · exact ⟨tn, ttbl, List.mem_cons_of_mem _ hmem, es, hlk, hhit⟩

theorem targetFoldChar : ∀ (targets : List (String × TomlVal)) (acc out : List String),
    targetFold acc targets = some out →
    (∀ a, a ∈ out ↔ a ∈ acc ∨ targetHitL targets a) ∧ (acc.Nodup → out.Nodup) := by
  intro targets
  induction targets with
  | nil =>
    intro acc out h
    simp only [targetFold] at h
    injection h with h
    subst h
    exact ⟨fun a => by simp [targetHitL], id⟩
  | cons t ts ih =>
    intro acc out h
    obtain ⟨t1, t2⟩ := t
    cases t2 with
    | str s =>
      simp only [targetFold] at h
      have := ih acc out h
      refine ⟨fun a => ?_, this.2⟩
      rw [this.1 a, targetHitLCons]
      simp
    | boolVal b =>
      simp only [targetFold] at h
      have := ih acc out h
      refine ⟨fun a => ?_, this.2⟩
      rw [this.1 a, targetHitLCons]
      simp
    | intVal n =>
      simp only [targetFold] at h
      have := ih acc out h
      refine ⟨fun a => ?_, this.2⟩
      rw [this.1 a, targetHitLCons]
      simp
    | table ttbl =>
      simp only [targetFold] at h
      cases hlk : List.lookup "dependencies" ttbl with
      | none =>
        rw [hlk] at h
        have := ih acc out h
        refine ⟨fun a => ?_, this.2⟩
        rw [this.1 a, targetHitLCons]
        simp [hlk]
      | some v =>
        rw [hlk] at h
        cases v with
        | str s => cases h
        | boolVal b => cases h
        | intVal n => cases h
        | table entries =>
          have := ih (addTableDeps acc entries) out h
          refine ⟨fun a => ?_, fun hn => this.2 (nodupAddTableDeps entries acc hn)⟩
          rw [this.1 a, memAddTableDeps, targetHitLCons]
          constructor
          · rintro ((ha | hhit) | hts)
            · exact Or.inl ha
            · exact Or.inr (Or.inl ⟨ttbl, rfl, entries, hlk, hhit⟩)
            · exact Or.inr (Or.inr hts)
          · rintro (ha | (⟨ttbl', heq, es, hlk', hhit⟩ | hts))
            · exact Or.inl (Or.inl ha)
            · injection heq with heq
              subst heq
              rw [hlk] at hlk'
              injection hlk' with hlk'
              injection hlk' with hlk'
              subst hlk'
              exact Or.inl (Or.inr hhit)
            · exact Or.inr hts

theorem targetSectionChar (data : List (String × TomlVal)) (acc out : List String)
    (h : targetSection data acc = some out) :
    (∀ a, a ∈ out ↔ a ∈ acc ∨ targetHit data a) ∧ (acc.Nodup → out.Nodup) := by
  unfold targetSection at h
  cases hl : List.lookup "target" data with
  | none =>
    rw [hl] at h
    injection h with h
    subst h
    exact ⟨fun a => by simp [targetHit, hl], id⟩
  | some v =>
    rw [hl] at h
    cases v with
    | str s => cases h
    | boolVal b => cases h
    | intVal n => cases h
    | table targets =>
      have := targetFoldChar targets acc out h
      refine ⟨fun a => ?_, this.2⟩
      rw [this.1 a]
      simp [targetHit, hl]

/-- The manifest refuting claim C8 as stated: `optional = 1` is not the
boolean `true`, yet the code skips the entry because `1` is truthy. -/
def cexManifest : List (String × TomlVal) :=
  [("dependencies", .table [("a", .table [("optional", .intVal 1)])])]

/-- Counterexample to claim C8 as stated: on a dependencies table whose
single entry has `optional = 1`, `_parse_dependencies` returns the empty
list (the entry is skipped, `1` being truthy), while the spec's rule —
skip only when `optional` is set to the boolean true — keeps the name
`"a"`; the two skip predicates differ on this entry's value. -/
theorem claim_C8_counterexample :
    parseDependencies cexManifest = some [] ∧
    specParseDependencyNames cexManifest = ["a"] ∧
    skipOptional (.table [("optional", .intVal 1)]) = true ∧
    specSkip (.table [("optional", .intVal 1)]) = false :=
  ⟨by decide, by decide, by decide, by decide⟩

/-- Claim C8 (amended): whenever `_parse_dependencies` returns without
raising, the returned list contains exactly the names found in the
`dependencies` table, the `dev-dependencies` table and every nested
table under `target.*.dependencies`, skipping any entry whose value is
a table whose `optional` field is present with a *truthy* value (the
boolean true, a nonzero number, a non-empty string or a non-empty
table) — not only the exact boolean true — and the list contains no
duplicate names. -/
theorem claim_C8_parse_names (data : List (String × TomlVal)) (l : List String)
    (h : parseDependencies data = some l) :
    (∀ a, a ∈ l ↔ sectionHit data "dependencies" a ∨
      sectionHit data "dev-dependencies" a ∨ targetHit data a) ∧ l.Nodup := by
  unfold parseDependencies at h
  cases h1 : depSection data "dependencies" [] with
  | none =>
    rw [h1] at h
    cases h
  | some a1 =>
    rw [h1, Option.some_bind] at h
    cases h2 : depSection data "dev-dependencies" a1 with
    | none =>
      rw [h2] at h
      cases h
    | some a2 =>
      rw [h2, Option.some_bind] at h
      have c1 := depSectionChar data "dependencies" [] a1 h1
      have c2 := depSectionChar data "dev-dependencies" a1 a2 h2
      have c3 := targetSectionChar data a2 l h
      refine ⟨fun a => ?_, c3.2 (c2.2 (c1.2 List.nodup_nil))⟩
      rw [c3.1 a, c2.1 a, c1.1 a]
      simp [or_assoc]

/-- A well-formed manifest exercising the amended C8: `x` is kept, `y`
is optional and skipped. -/
def egManifest : List (String × TomlVal) :=
  [("dependencies", .table [("x", .str "1"), ("y", .table [("optional", .boolVal true)])])]

/-- Witness for the amended C8 at a concrete manifest. -/
theorem claim_C8_witness :
    (("x" ∈ (["x"] : List String)) ↔ sectionHit egManifest "dependencies" "x" ∨
      sectionHit egManifest "dev-dependencies" "x" ∨ targetHit egManifest "x") ∧
    (["x"] : List String).Nodup := by
  have h := claim_C8_parse_names egManifest ["x"] (by decide)
  exact ⟨h.1 "x", h.2⟩

/-! ### The reverse-dependency index (claims C6 and C10) -/

theorem rgAddLookupEq (rg : List (String × List String)) (key val : String) :
    rgLookup (rgAdd rg key val) key = rgLookup rg key ++ [val] := by
  induction rg with
  | nil => simp [rgAdd, rgLookup, List.lookup]
  | cons p rest ih =>
    obtain ⟨k, l⟩ := p
    by_cases hk : k = key
    · subst hk
      simp [rgAdd, rgLookup, List.lookup]
    · have hb1 : (k == key) = false := by simp [hk]
      have hb2 : (key == k) = false := by simp [Ne.symm hk]
      simp only [rgAdd, hb1, Bool.false_eq_true, if_false]
      simp only [rgLookup, List.lookup, hb2] at ih ⊢
      exact ih

theorem rgAddLookupNe (rg : List (String × List String)) (key val x : String)
    (hx : x ≠ key) : rgLookup (rgAdd rg key val) x = rgLookup rg x := by
  induction rg with
  | nil =>
    have hb : (x == key) = false := by simp [hx]
    simp [rgAdd, rgLookup, List.lookup, hb]
  | cons p rest ih =>
    obtain ⟨k, l⟩ := p
    by_cases hk : k = key
    · subst hk
      have hb : (x == k) = false := by simp [hx]
      simp [rgAdd, rgLookup, List.lookup, hb]
    · have hb1 : (k == key) = false := by simp [hk]
      simp only [rgAdd, hb1, Bool.false_eq_true, if_false]
      by_cases hxk : x = k
      · subst hxk
        simp [rgLookup, List.lookup]
      · have hb2 : (x == k) = false := by simp [hxk]
        simp only [rgLookup, List.lookup, hb2] at ih ⊢
        exact ih

theorem foldRgAddLookup (resolve : String → String) (pkg : String) :
    ∀ (deps : List String) (rg : List (String × List String)) (x : String),
      rgLookup (deps.foldl (fun rg dep => rgAdd rg (mkId dep (resolve dep)) pkg) rg) x =
        rgLookup rg x ++
          (deps.filter (fun dep => mkId dep (resolve dep) == x)).map (fun _ => pkg) := by
  intro deps
  induction deps with
  | nil =>
    intro rg x
    simp
  | cons d ds ih =>
    intro rg x
    rw [List.foldl_cons, ih, List.filter_cons]
    by_cases hd : mkId d (resolve d) = x
    · have hb : (mkId d (resolve d) == x) = true := by simp [hd]
      rw [hb]
      subst hd
      rw [rgAddLookupEq]
      simp
    · have hb : (mkId d (resolve d) == x) = false := by simp [hd]
      rw [hb]
      rw [rgAddLookupNe rg (mkId d (resolve d)) pkg x (fun hxx => hd hxx.symm)]
      simp

theorem reverseIndexFold (resolve : String → String) (x : String) :
    ∀ (g : List (String × List String)) (rg : List (String × List String)),
      rgLookup (g.foldl
        (fun rg e => e.2.foldl (fun rg dep => rgAdd rg (mkId dep (resolve dep)) e.1) rg) rg) x =
        rgLookup rg x ++ revEntries g resolve x := by
  intro g
  induction g with
  | nil =>
    intro rg
    simp [revEntries]
  | cons e gs ih =>
    intro rg
    rw [List.foldl_cons, ih, foldRgAddLookup]
    simp [revEntries, List.append_assoc]

theorem memRevEntries (resolve : String → String) (x K : String) :
    ∀ g : List (String × List String), K ∈ revEntries g resolve x ↔
      ∃ deps, (K, deps) ∈ g ∧ ∃ d ∈ deps, mkId d (resolve d) = x := by
  intro g
  induction g with
  | nil => simp [revEntries]
  | cons e gs ih =>
    obtain ⟨pkg, deps⟩ := e
    simp only [revEntries]
    rw [List.mem_append, ih]
    constructor
    · rintro (hmem | ⟨deps', hmem, hd⟩)
      · rcases List.mem_map.mp hmem with ⟨d, hdf, rfl⟩
        rcases List.mem_filter.mp hdf with ⟨hdd, hdx⟩
        exact ⟨deps, List.mem_cons_self _ _, ⟨d, hdd, by simpa using hdx⟩⟩
      · exact ⟨deps', List.mem_cons_of_mem _ hmem, hd⟩
    · rintro ⟨deps', hmem, d, hdd, hdx⟩
      rcases List.mem_cons.mp hmem with heq | hmem'
      · have hK : K = pkg := congrArg Prod.fst heq
        have hD : deps' = deps := congrArg Prod.snd heq
        subst hK
        subst hD
        left
        exact List.mem_map.mpr ⟨d, List.mem_filter.mpr ⟨hdd, by simp [hdx]⟩, rfl⟩
      · exact Or.inr ⟨deps', hmem', d, hdd, hdx⟩

/-- Claim C6: the reverse index maps `x` to the dependents of `x` in
forward-graph iteration order — the adjacency list of `x` equals the
walk that appends one entry per dependency name resolving to `x`
(`revEntries`, the spec's wording), membership in it characterizes
exactly the graph keys one of whose dependency names resolves to `x`,
and the dict is rebuilt from scratch on every query: the previously
stored reverse graph does not influence the result. -/
theorem claim_C6_reverse_index (g : List (String × List String))
    (resolve : String → String) (x : String) :
    rgLookup (reverseIndex g resolve) x = revEntries g resolve x ∧
    (∀ K, K ∈ rgLookup (reverseIndex g resolve) x ↔
      ∃ deps, (K, deps) ∈ g ∧ ∃ d ∈ deps, mkId d (resolve d) = x) ∧
    (∀ prev1 prev2, showReverseDeps prev1 g resolve = showReverseDeps prev2 g resolve) := by
  have h1 : rgLookup (reverseIndex g resolve) x = revEntries g resolve x := by
    unfold reverseIndex
    rw [reverseIndexFold]
    simp [rgLookup, List.lookup]
  refine ⟨h1, fun K => ?_, fun _ _ => rfl⟩
  rw [h1]
  exact memRevEntries resolve x K g

theorem renderOnePres (g : List (String × List String)) (resolve : String → String)
    (pkg : String) (es : List (String × String)) (dep : String)
    (hes : ∀ q ∈ es, q.2 ∈ g.map Prod.fst) :
    ∀ p ∈ renderOne g resolve pkg es dep, p.2 ∈ g.map Prod.fst := by
  intro p hp
  simp only [renderOne] at hp
  by_cases hs : (List.lookup (mkId dep (resolve dep)) g).isSome = true
  · rw [if_pos hs] at hp
    rcases List.mem_append.mp hp with hp | hp
    · exact hes p hp
    · rcases List.mem_singleton.mp hp with rfl
      exact lookupIsSomeMem hs
  · rw [if_neg hs] at hp
    exact hes p hp

theorem renderFoldPres (g : List (String × List String)) (resolve : String → String)
    (pkg : String) : ∀ (deps : List String) (es : List (String × String)),
    (∀ q ∈ es, q.2 ∈ g.map Prod.fst) →
    ∀ p ∈ deps.foldl (renderOne g resolve pkg) es, p.2 ∈ g.map Prod.fst := by
  intro deps
  induction deps with
  | nil =>
    intro es hes p hp
    exact hes p hp
  | cons d ds ih =>
    intro es hes p hp
    rw [List.foldl_cons] at hp
    exact ih (renderOne g resolve pkg es d) (renderOnePres g resolve pkg es d hes) p hp

theorem renderRowsPres (g : List (String × List String)) (resolve : String → String) :
    ∀ (rows : List (String × List String)) (es : List (String × String)),
    (∀ q ∈ es, q.2 ∈ g.map Prod.fst) →
    ∀ p ∈ rows.foldl (fun es e => e.2.foldl (renderOne g resolve e.1) es) es,
      p.2 ∈ g.map Prod.fst := by
  intro rows
  induction rows with
  | nil =>
    intro es hes p hp
    exact hes p hp
  | cons e rest ih =>
    intro es hes p hp
    rw [List.foldl_cons] at hp
    exact ih _ (renderFoldPres g resolve e.1 e.2 es hes) p hp

/-- The phantom-key example for C10: resolution at query time maps the
only dependency name to a version absent from the graph. -/
def phantomG : List (String × List String) := [("a@1.0", ["b"])]

/-- Claim C10: the reverse index's keys are not restricted to forward
graph keys — on `phantomG` with a resolver answering `9.9` the index
acquires the key `b@9.9` which the forward graph lacks — while the
renderer's edge construction only ever targets existing graph keys. -/
theorem claim_C10_reverse_keys_unchecked :
    (("b@9.9" ∈ (reverseIndex phantomG (fun _ => "9.9")).map Prod.fst) ∧
     ("b@9.9" ∉ phantomG.map Prod.fst)) ∧
    (∀ (g : List (String × List String)) (resolve : String → String) (p : String × String),
      p ∈ renderEdges g resolve → p.2 ∈ g.map Prod.fst) := by
  refine ⟨⟨by decide, by decide⟩, ?_⟩
  intro g resolve p hp
  exact renderRowsPres g resolve g [] (by simp) p hp

/-- A two-node graph whose single edge the renderer draws. -/
def rendG : List (String × List String) := [("a@1.0", ["b"]), ("b@1.0", [])]

/-- Witness for C10: the concrete rendered edge targets a graph key. -/
theorem claim_C10_witness : ("b@1.0" : String) ∈ rendG.map Prod.fst :=
  claim_C10_reverse_keys_unchecked.2 rendG (fun _ => "1.0") ("a@1.0", "b@1.0") (by decide)

/-! ### Termination of the traversal (claim C5) -/

/-- Canonical id of a `(name, version)` pair. -/
def pairId (p : String × String) : String := mkId p.1 p.2

/-- The distinct ids of a closed universe of packages. -/
def closureIds (S : List (String × String)) : List String := (S.map pairId).dedup

/-- How many ids of the universe are not yet visited. -/
def remaining (S : List (String × String)) (vis : List String) : Nat :=
  ((closureIds S).filter (fun x => !(vis.contains x))).length

/-- The termination measure of the loop. -/
def mu (S : List (String × String)) (s : BuildState) : Nat :=
  2 * remaining S s.visited + s.queue.length

theorem filterLenErase (l : List String) (hl : l.Nodup) (x : String) (p : String → Bool)
    (hx : x ∈ l) (hpx : p x = true) :
    (l.filter (fun y => p y && !(y == x))).length + 1 = (l.filter p).length := by
  induction l with
  | nil => cases hx
  | cons a t ih =>
    rw [List.nodup_cons] at hl
    rcases List.mem_cons.mp hx with heq | hxt
    · subst heq
      have hfc : List.filter (fun y => p y && !(y == x)) t = List.filter p t := by
        apply List.filter_congr
        intro y hy
        have hyx : (y == x) = false := by
          simp only [beq_eq_false_iff_ne, ne_eq]
          intro hcon
          exact hl.1 (hcon ▸ hy)
        simp [hyx]
      rw [List.filter_cons, List.filter_cons,
        if_neg (by simp : ¬((p x && !(x == x)) = true)), if_pos hpx, hfc]
      simp
    · rw [List.filter_cons, List.filter_cons]
      have hax : (a == x) = false := by
        simp only [beq_eq_false_iff_ne, ne_eq]
        intro hcon
        exact hl.1 (hcon ▸ hxt)
      cases hpa : p a with
      | true =>
        rw [if_pos (by rw [hax]; rfl : (true && !(a == x)) = true), if_pos rfl]
        simp only [List.length_cons]
        have := ih hl.2 hxt
        omega
      | false =>
        rw [if_neg (by simp : ¬((false && !(a == x)) = true)),
          if_neg (by simp : ¬(false = true))]
        exact ih hl.2 hxt

theorem containsAppendSingle (vis : List String) (x y : String) :
    (vis ++ [x]).contains y = (vis.contains y || (y == x)) := by
  cases h1 : vis.contains y with
  | true =>
    have hm : y ∈ vis ++ [x] := List.mem_append_left _ (memContains.mp h1)
    rw [memContains.mpr hm, Bool.true_or]
  | false =>
    cases h2 : (y == x) with
    | true =>
      have hyx : y = x := by simpa using h2
      have hm : y ∈ vis ++ [x] := List.mem_append_right _ (by simp [hyx])
      rw [memContains.mpr hm, Bool.false_or]
    | false =>
      have hyv : y ∉ vis := notMemContains.mp h1
      have hyx : y ≠ x := by simpa using h2
      have hnm : y ∉ vis ++ [x] := by
        intro hm
        rcases List.mem_append.mp hm with hm | hm
        · exact hyv hm
        · exact hyx (List.mem_singleton.mp hm)
      rw [notMemContains.mpr hnm, Bool.false_or]

theorem remainingDrop (S : List (String × String)) (vis : List String) (x : String)
    (hx : x ∈ closureIds S) (hv : x ∉ vis) :
    remaining S (vis ++ [x]) + 1 = remaining S vis := by
  unfold remaining
  have hcongr : List.filter (fun y => !((vis ++ [x]).contains y)) (closureIds S) =
      List.filter (fun y => (!(vis.contains y)) && !(y == x)) (closureIds S) := by
    apply List.filter_congr
    intro y _
    rw [containsAppendSingle]
    simp
  rw [hcongr]
  have hpx : (fun y => !(vis.contains y)) x = true := by
    have hb : vis.contains x = false := notMemContains.mpr hv
    simp only [hb, Bool.not_false]
  exact filterLenErase (closureIds S) (List.nodup_dedup _) x (fun y => !(vis.contains y)) hx hpx

theorem enqOneCases (env : Env) (d : Nat) (acc : EnqAcc) (dep : String) :
    enqOne env d acc dep = acc ∨
    (mkId dep (getLatestVersion env.registry dep) ∉ acc.vis ∧
      enqOne env d acc dep =
        ⟨acc.vis ++ [mkId dep (getLatestVersion env.registry dep)],
         acc.q ++ [⟨dep, getLatestVersion env.registry dep, d + 1⟩],
         acc.log ++ [⟨dep, getLatestVersion env.registry dep, d + 1⟩]⟩) := by
  simp only [enqOne]
  by_cases hm : mkId dep (getLatestVersion env.registry dep) ∈ acc.vis
  · rw [if_pos (memContains.mpr hm)]
    exact Or.inl rfl
  · rw [if_neg (fun hx => hm (memContains.mp hx))]
    exact Or.inr ⟨hm, rfl⟩

theorem enqueueDepsMu (env : Env) (S : List (String × String)) (d : Nat) :
    ∀ (deps : List String) (acc : EnqAcc),
      (∀ dep ∈ deps, (dep, getLatestVersion env.registry dep) ∈ S) →
      (∀ q ∈ acc.q, (q.qname, q.qver) ∈ S) →
      (2 * remaining S (enqueueDeps env d deps acc).vis +
          (enqueueDeps env d deps acc).q.length ≤
        2 * remaining S acc.vis + acc.q.length) ∧
      (∀ q ∈ (enqueueDeps env d deps acc).q, (q.qname, q.qver) ∈ S) := by
  intro deps
  induction deps with
  | nil =>
    intro acc _ hq
    exact ⟨le_refl _, hq⟩
  | cons dep ds ih =>
    intro acc hdeps hq
    have hdep := hdeps dep (List.mem_cons_self _ _)
    have hds : ∀ x ∈ ds, (x, getLatestVersion env.registry x) ∈ S :=
      fun x hx => hdeps x (List.mem_cons_of_mem _ hx)
    have hcons : enqueueDeps env d (dep :: ds) acc =
        enqueueDeps env d ds (enqOne env d acc dep) := rfl
    rcases enqOneCases env d acc dep with hcase | ⟨hnv, hcase⟩
    · rw [hcons, hcase]
      exact ih acc hds hq
    · rw [hcons, hcase]
      have hidin : mkId dep (getLatestVersion env.registry dep) ∈ closureIds S := by
        unfold closureIds
        rw [List.mem_dedup]
        exact List.mem_map.mpr ⟨(dep, getLatestVersion env.registry dep), hdep, rfl⟩
      have hrd := remainingDrop S acc.vis _ hidin hnv
      have hqS : ∀ q ∈ acc.q ++ [(⟨dep, getLatestVersion env.registry dep, d + 1⟩ : QEntry)],
          (q.qname, q.qver) ∈ S := by
        intro q hq2
        rcases List.mem_append.mp hq2 with h | h
        · exact hq q h
        · rcases List.mem_singleton.mp h with rfl
          exact hdep
      have hih := ih ⟨acc.vis ++ [mkId dep (getLatestVersion env.registry dep)],
        acc.q ++ [⟨dep, getLatestVersion env.registry dep, d + 1⟩],
        acc.log ++ [⟨dep, getLatestVersion env.registry dep, d + 1⟩]⟩ hds hqS
      refine ⟨?_, hih.2⟩
      have h1 := hih.1
      simp only [List.length_append, List.length_cons, List.length_nil] at h1
      omega

theorem stepMuDec (env : Env) (cfg : Config) (S : List (String × String)) (s : BuildState)
    (hclosed : ∀ p ∈ S, ∀ dep ∈ fetchDeps env p.1 p.2,
      (dep, getLatestVersion env.registry dep) ∈ S)
    (hqS : ∀ q ∈ s.queue, (q.qname, q.qver) ∈ S)
    (e : QEntry) (rest : List QEntry) (hq : s.queue = e :: rest) :
    mu S (step env cfg s) < mu S s ∧
    (∀ q ∈ (step env cfg s).queue, (q.qname, q.qver) ∈ S) := by
  have hlen : s.queue.length = rest.length + 1 := by rw [hq]; rfl
  have hrest : ∀ q ∈ rest, (q.qname, q.qver) ∈ S := by
    intro q hqq
    exact hqS q (by rw [hq]; exact List.mem_cons_of_mem _ hqq)
  have hmus : mu S s = 2 * remaining S s.visited + (rest.length + 1) := by
    simp only [mu, hlen]
  by_cases hg : graphHas s.graph (qId e) = true
  · rw [stepSkip env cfg s e rest hq hg]
    constructor
    · show 2 * remaining S s.visited + rest.length < mu S s
      rw [hmus]
      omega
    · exact hrest
  · have hg' : graphHas s.graph (qId e) = false := by
      cases hx : graphHas s.graph (qId e)
      · rfl
      · exact absurd hx hg
    by_cases hd : depthCut cfg.maxDepth e.qdepth = true
    · rw [stepCut env cfg s e rest hq hg' hd]
      constructor
      · show 2 * remaining S s.visited + rest.length < mu S s
        rw [hmus]
        omega
      · exact hrest
    · have hd' : depthCut cfg.maxDepth e.qdepth = false := by
        cases hx : depthCut cfg.maxDepth e.qdepth
        · rfl
        · exact absurd hx hd
      by_cases hf : filterHit (pyLower cfg.filterSubstring) e.qname = true
      · rw [stepFilter env cfg s e rest hq hg' hd' hf]
        constructor
        · show 2 * remaining S s.visited + rest.length < mu S s
          rw [hmus]
          omega
        · exact hrest
      · have hf' : filterHit (pyLower cfg.filterSubstring) e.qname = false := by
          cases hx : filterHit (pyLower cfg.filterSubstring) e.qname
          · rfl
          · exact absurd hx hf
        rw [stepNormal env cfg s e rest hq hg' hd' hf']
        have hhead : (e.qname, e.qver) ∈ S := hqS e (by rw [hq]; exact List.mem_cons_self _ _)
        have hdeps : ∀ dep ∈ fetchDeps env e.qname e.qver,
            (dep, getLatestVersion env.registry dep) ∈ S := hclosed (e.qname, e.qver) hhead
        have hmu := enqueueDepsMu env S e.qdepth (fetchDeps env e.qname e.qver)
          ⟨s.visited, rest, s.enqLog⟩ hdeps hrest
        constructor
        · show 2 * remaining S (enqueueDeps env e.qdepth (fetchDeps env e.qname e.qver)
              ⟨s.visited, rest, s.enqLog⟩).vis +
            (enqueueDeps env e.qdepth (fetchDeps env e.qname e.qver)
              ⟨s.visited, rest, s.enqLog⟩).q.length < mu S s
          have h1 : 2 * remaining S (enqueueDeps env e.qdepth (fetchDeps env e.qname e.qver)
              ⟨s.visited, rest, s.enqLog⟩).vis +
              (enqueueDeps env e.qdepth (fetchDeps env e.qname e.qver)
                ⟨s.visited, rest, s.enqLog⟩).q.length ≤
              2 * remaining S s.visited + rest.length := hmu.1
          rw [hmus]
          omega
        · exact hmu.2

theorem buildFromEmpty (env : Env) (cfg : Config) (s : BuildState) (h : s.queue = []) :
    ∀ k, buildFrom env cfg s k = s := by
  intro k
  induction k with
  | zero => rfl
  | succ k ih =>
    show step env cfg (buildFrom env cfg s k) = s
    rw [ih]
    exact stepNil env cfg s h

theorem buildFromShift (env : Env) (cfg : Config) (s : BuildState) :
    ∀ k, buildFrom env cfg s (k + 1) = buildFrom env cfg (step env cfg s) k := by
  intro k
  induction k with
  | zero => rfl
  | succ k ih =>
    show step env cfg (buildFrom env cfg s (k + 1)) = buildFrom env cfg (step env cfg s) (k + 1)
    rw [ih]
    rfl

theorem termAux (env : Env) (cfg : Config) (S : List (String × String))
    (hclosed : ∀ p ∈ S, ∀ dep ∈ fetchDeps env p.1 p.2,
      (dep, getLatestVersion env.registry dep) ∈ S) :
    ∀ fuel s, (∀ q ∈ s.queue, (q.qname, q.qver) ∈ S) → mu S s ≤ fuel →
      (buildFrom env cfg s fuel).queue = [] := by
  intro fuel
  induction fuel with
  | zero =>
    intro s hqS hmu
    have hlen : s.queue.length = 0 := by
      simp only [mu] at hmu
      omega
    exact List.length_eq_zero.mp hlen
  | succ fuel ih =>
    intro s hqS hmu
    cases hq : s.queue with
    | nil =>
      rw [buildFromEmpty env cfg s hq]
      exact hq
    | cons e rest =>
      rw [buildFromShift]
      have hdec := stepMuDec env cfg S s hclosed hqS e rest hq
      exact ih (step env cfg s) hdec.2 (by omega)

/-- Claim C5: a node whose download, extraction or manifest parse fails
is still recorded (with an empty dependency list, its fetch attempt
logged) and the loop simply moves to the next queue entry; no fetch is
ever retried — the ids in the ghost fetch log are pairwise distinct —
and every node processed past the depth and filter guards is fetched
exactly once; and whenever the discoverable universe is finite (a list
of `(name, version)` pairs containing the root and closed under
dependency resolution), the traversal drains its queue after finitely
many iterations and returns the (possibly degraded) graph. -/
theorem claim_C5_failure_nonfatal (env : Env) (cfg : Config) (n : Nat) :
    (∀ e rest, (buildRun env cfg n).queue = e :: rest →
      depthCut cfg.maxDepth e.qdepth = false →
      filterHit (pyLower cfg.filterSubstring) e.qname = false →
      (env.manifest e.qname e.qver = none ∨
        ∃ m, env.manifest e.qname e.qver = some m ∧ parseDependencies m = none) →
      step env cfg (buildRun env cfg n) =
        { (buildRun env cfg n) with
          queue := rest,
          graph := (buildRun env cfg n).graph ++ [⟨qId e, e.qname, e.qver, e.qdepth, []⟩],
          fetchLog := (buildRun env cfg n).fetchLog ++ [(e.qname, e.qver)] }) ∧
    ((buildRun env cfg n).fetchLog.map (fun p => mkId p.1 p.2)).Nodup ∧
    (∀ e ∈ (buildRun env cfg n).graph, depthCut cfg.maxDepth e.depth = false →
      filterHit (pyLower cfg.filterSubstring) e.name = false →
      (e.name, e.version) ∈ (buildRun env cfg n).fetchLog) ∧
    (∀ S : List (String × String), (cfg.packageName, cfg.version) ∈ S →
      (∀ p ∈ S, ∀ dep ∈ fetchDeps env p.1 p.2,
        (dep, getLatestVersion env.registry dep) ∈ S) →
      ∃ m, (buildRun env cfg m).queue = []) := by
  have hinv := invRun env cfg n
  refine ⟨?_, hinv.fetchNodup, hinv.fetchAll, ?_⟩
  · intro e rest hq hd hf hfail
    have hfresh := hinv.queueFresh e (by rw [hq]; exact List.mem_cons_self _ _)
    have hg : graphHas (buildRun env cfg n).graph (qId e) = false := graphHasFalse.mpr hfresh
    have hfd : fetchDeps env e.qname e.qver = [] := by
      rcases hfail with hfail | ⟨m, hm, hp⟩
      · simp [fetchDeps, hfail]
      · simp [fetchDeps, hm, hp]
    rw [stepNormal env cfg (buildRun env cfg n) e rest hq hg hd hf, hfd]
    rfl
  · intro S hroot hclosed
    refine ⟨mu S (initState cfg), ?_⟩
    have hq0 : ∀ q ∈ (initState cfg).queue, (q.qname, q.qver) ∈ S := by
      intro q hqq
      simp only [initState, List.mem_singleton] at hqq
      subst hqq
      exact hroot
    exact termAux env cfg S hclosed (mu S (initState cfg)) (initState cfg) hq0 (le_refl _)

/-- Witness for C5: on an environment where every download fails, the
root is recorded with an empty list, its single fetch attempt is
logged, the queue is popped, and the traversal terminates. -/
theorem claim_C5_witness :
    step envFail demoCfg (buildRun envFail demoCfg 0) =
      { (buildRun envFail demoCfg 0) with
        queue := [],
        graph := (buildRun envFail demoCfg 0).graph ++ [⟨"demo@1.0", "demo", "1.0", 0, []⟩],
        fetchLog := (buildRun envFail demoCfg 0).fetchLog ++ [("demo", "1.0")] } ∧
    (∃ m, (buildRun envFail demoCfg m).queue = []) := by
  have h := claim_C5_failure_nonfatal envFail demoCfg 0
  constructor
  · exact h.1 ⟨"demo", "1.0", 0⟩ [] (by decide) (by decide) (by decide) (Or.inl rfl)
  · exact h.2.2.2 [("demo", "1.0")] (by decide) (by decide)

end DepViz
